import Mathlib

/-!
Verification of the bob.math repository core algorithms against its
natural-language specification.

Part 1: the Pool-Adjacent-Violators (PAV) isotonic-regression engine,
embedded from `pavx.cpp` (`pavx_1`, `pavx_2`, `bob::math::pavx_`,
`bob::math::pavx`, `bob::math::pavxWidth`, `bob::math::pavxWidthHeight`).
The C++ works on `blitz::Array<double,1>`; the embedding models the
array contents with exact rationals (the spec states its properties over
real sequences) and a 1-D input array of extent `n` as a function
`ℕ → ℚ` read at indices `0 .. n-1`.

The C++ keeps the interval stack in three flat arrays `index`, `len`,
`ghat` together with a top-of-stack counter `ci`; entries above `ci` are
never read after being popped, so the live state is exactly the list of
blocks `0 .. ci`.  The embedding stores that list top-first.
-/

namespace BobMath

/-- One interval ("block") of the PAV working state: its left endpoint
`index`, its length `len`, and the mean `ghat` of the pooled y-values. -/
structure Block where
  index : ℕ
  len : ℕ
  ghat : ℚ
deriving Repr, DecidableEq

/-- The "pool adjacent violators" inner `while` loop of `pavx_1`
(`while (ci >= 1 && ghat(ci-1) >= ghat(ci))`): while the stack has at
least two blocks and the mean of the block below the top is ≥ the top
mean, merge the two (`nw = len(ci-1)+len(ci)`;
`ghat(ci-1) += (len(ci)/nw)*(ghat(ci)-ghat(ci-1))`; `len(ci-1) = nw`).
The stack is top-first. -/
def pool : List Block → List Block
  | cur :: prev :: rest =>
      if prev.ghat ≥ cur.ghat then
        pool (⟨prev.index, prev.len + cur.len,
               prev.ghat + ((cur.len : ℚ) / ((prev.len : ℚ) + (cur.len : ℚ))) *
                 (cur.ghat - prev.ghat)⟩ :: rest)
      else cur :: prev :: rest
  | s => s
termination_by s => s.length

/-- First pass of the algorithm (static `pavx_1`): initialise the stack
with the single block `(index 0, len 1, ghat y(0))`, then for
`j = 1 .. n-1` push the singleton block `(j, 1, y(j))` and run the
pooling loop.  Returns the final stack (the C++ returns `ci`; here the
whole live stack, top-first). -/
def pavx_1 (y : ℕ → ℚ) (n : ℕ) : List Block :=
  (List.range' 1 (n - 1)).foldl
    (fun s j => pool (⟨j, 1, y j⟩ :: s)) [⟨0, 1, y 0⟩]

/-- Second pass (static `pavx_2`): fill `ghat` for all original indices,
right to left: for each block from the top down, write its mean over
`index(ci) .. n-1`, then continue with `n = index(ci)`. -/
def pavx_2 : List Block → ℕ → List ℚ
  | [], _ => []
  | b :: rest, n => pavx_2 rest b.index ++ List.replicate (n - b.index) b.ghat

/-- `bob::math::pavx_`: the unchecked PAV entry point, first pass then
second pass. -/
def pavx_ (y : ℕ → ℚ) (n : ℕ) : List ℚ :=
  pavx_2 (pavx_1 y n) n

/-- `bob::math::pavx`: the checked entry point; after the shape/extent
assertions it just runs `pavx_`. -/
def pavx (y : ℕ → ℚ) (n : ℕ) : List ℚ :=
  pavx_ y n

/-- `bob::math::pavxWidth`: first pass, extract `len(0..ci)`
(bottom-to-top, i.e. left-to-right), then second pass; returns the
width vector alongside the filled `ghat`. -/
def pavxWidth (y : ℕ → ℚ) (n : ℕ) : List ℕ × List ℚ :=
  let s := pavx_1 y n
  ((s.reverse).map Block.len, pavx_2 s n)

/-- `bob::math::pavxWidthHeight`: first pass, extract `len(0..ci)` and
`ghat(0..ci)` (left-to-right), then second pass; returns
`((width, height), ghat)`. -/
def pavxWidthHeight (y : ℕ → ℚ) (n : ℕ) : (List ℕ × List ℚ) × List ℚ :=
  let s := pavx_1 y n
  (((s.reverse).map Block.len, (s.reverse).map Block.ghat), pavx_2 s n)

/-- Expansion of a bottom-first (left-to-right) block list into the full
sequence: each block contributes `len` copies of its mean. -/
def expandBlocks : List Block → List ℚ
  | [] => []
  | b :: rest => List.replicate b.len b.ghat ++ expandBlocks rest

/-- Expansion of a `(width, height)` pair into a full sequence: each
height value repeated width-many times, left to right. -/
def expandWH : List ℕ → List ℚ → List ℚ
  | w :: ws, h :: hs => List.replicate w h ++ expandWH ws hs
  | _, _ => []

/-! ### Invariants of the block stack -/

/-- Sum of `y` over the index interval `[a, b)`. -/
def segSum (y : ℕ → ℚ) (a b : ℕ) : ℚ := ∑ i in Finset.Ico a b, y i

/-- A top-first block stack `s` tiles the index interval `[0, n)`:
the top block ends at `n`, and the remaining stack tiles `[0, top.index)`. -/
def tiles : List Block → ℕ → Prop
  | [], n => n = 0
  | b :: rest, n => b.index + b.len = n ∧ tiles rest b.index

/-- The facts `pavx_1` maintains about every live block: positive
length, `ghat` is the exact mean of the pooled `y`-values, and every
left-aligned partial sum of the block dominates the corresponding
multiple of the mean (the pooled sub-blocks on the left had larger
means). -/
structure GoodBlock (y : ℕ → ℚ) (b : Block) : Prop where
  len_pos : 0 < b.len
  mean_eq : segSum y b.index (b.index + b.len) = (b.len : ℚ) * b.ghat
  init_ge : ∀ q, b.index ≤ q → q < b.index + b.len →
    ((q + 1 - b.index : ℕ) : ℚ) * b.ghat ≤ segSum y b.index (q + 1)

/-- Stack ordering: the block above has a strictly larger mean. -/
def StrictAbove (a b : Block) : Prop := b.ghat < a.ghat

/-- Every block of the stack spans a constant run of the input (the
shape the stack takes when the input is already non-decreasing). -/
def ConstBlocks (y : ℕ → ℚ) (s : List Block) : Prop :=
  ∀ b ∈ s, ∀ i, b.index ≤ i → i < b.index + b.len → y i = b.ghat

/-! ### Refinement model for the pooling pass (C3)

The following three definitions restate, in the words of the
specification, the pooling pass: scan left to right; push a length-1
block; while the newest block mean is ≤ the mean of the block
immediately to its left, merge the two (length = sum of lengths, mean
updated by `ghat(prev) += (len(cur)/combined_len)*(ghat(cur)-ghat(prev))`);
at the end fill each surviving block span with that block final mean. -/

def specPool : List Block → List Block
  | cur :: prev :: rest =>
      if cur.ghat ≤ prev.ghat then
        specPool (⟨prev.index, prev.len + cur.len,
               prev.ghat + ((cur.len : ℚ) / ((prev.len : ℚ) + (cur.len : ℚ))) *
                 (cur.ghat - prev.ghat)⟩ :: rest)
      else cur :: prev :: rest
  | s => s
termination_by s => s.length

def specBlocks (y : ℕ → ℚ) (n : ℕ) : List Block :=
  (List.range' 1 (n - 1)).foldl
    (fun s j => specPool (⟨j, 1, y j⟩ :: s)) [⟨0, 1, y 0⟩]

def pavxSpec (y : ℕ → ℚ) (n : ℕ) : List ℚ :=
  expandBlocks (specBlocks y n).reverse

/-! ### The LP interior-point Python binding (`LPInteriorPoint.cc`)

The claims C6, C7 and C9 concern the argument-marshaling layer
`PyBobMathLpInteriorPoint_solve`.  The three strategy subclasses all
inherit this single method (their `tp_base` is the base solver type),
so the binding is modelled once, parameterised over the strategy tag
and over the C++ core `bob::math::LPInteriorPoint::solve` (whose
implementation lives in the external `bob.math` core library), taken
as an abstract in-place update of the wrapper array. -/

def NPY_FLOAT64 : ℕ := 12

/-- A `PyBlitzArrayObject`: numeric type tag, shape, and contents. -/
structure PyBlitzArr where
  type_num : ℕ
  shape : List ℕ
  data : List ℚ
deriving Repr, DecidableEq

/-- The concrete step-strategy subclass the bound object was built
through. -/
inductive Strategy
  | shortstep
  | predictorCorrector
  | longstep
deriving Repr, DecidableEq

/-- Python-level errors raised by the binding, by raise site:
`typeError arg` for the per-argument dtype/rank rejections,
`pairedArgsError` for the "requires none or both mu and lambda"
RuntimeError, `runtimeError msg` for a C++ exception translated by the
catch block. -/
inductive PyErr
  | typeError (arg : String)
  | pairedArgsError
  | runtimeError (msg : String)
deriving Repr, DecidableEq

/-- Abstraction of the virtual C++ `solve`: given the strategy, the
data of `A`, `b`, `c`, the wrapper contents, and optionally the data of
`(lambda, mu)`, it either throws (message) or yields the final wrapper
contents (the C++ mutates the wrapper in place). -/
def LPCore : Type :=
  Strategy → List ℚ → List ℚ → List ℚ → List ℚ →
    Option (List ℚ × List ℚ) → Except String (List ℚ)

/-- The dtype/rank test the binding applies to each input array
(`type_num != NPY_FLOAT64 || ndim != nd`). -/
def validArr (a : PyBlitzArr) (nd : ℕ) : Bool :=
  a.type_num == NPY_FLOAT64 && a.shape.length == nd

/-- The same test for an optional argument: applied only if present. -/
def validOptArr (o : Option PyBlitzArr) : Bool :=
  match o with
  | none => true
  | some a => validArr a 1

/-- The validation prologue of `PyBobMathLpInteriorPoint_solve`, in
source order: dtype/rank of `A`, `b`, `c`, `x0`, then of `lambda` and
`mu` when present, then the none-or-both pairing check. -/
def lpSolveChecks (A b c x0 : PyBlitzArr) (lam mu : Option PyBlitzArr) : Option PyErr :=
  if !(validArr A 2) then some (PyErr.typeError "A")
  else if !(validArr b 1) then some (PyErr.typeError "b")
  else if !(validArr c 1) then some (PyErr.typeError "c")
  else if !(validArr x0 1) then some (PyErr.typeError "x0")
  else if !(validOptArr lam) then some (PyErr.typeError "lambda")
  else if !(validOptArr mu) then some (PyErr.typeError "mu")
  else if (lam.isSome && !mu.isSome) || (mu.isSome && !lam.isSome) then
    some PyErr.pairedArgsError
  else none

/-- The dual arguments handed to the core: the data of both when both
are present (the code calls the six-argument overload), nothing
otherwise. -/
def dualsData : Option PyBlitzArr → Option PyBlitzArr → Option (List ℚ × List ℚ)
  | some l, some m => some (l.data, m.data)
  | _, _ => none

/-- `PyBobMathLpInteriorPoint_solve` (functional view): validate, copy
`x0` into a freshly allocated output array of the same shape, run the
core on the copy (with both duals or with none), and on success halve
`shape[0]` before wrapping, so the caller sees only the first half. -/
def PyBobMathLpInteriorPoint_solve (strategy : Strategy) (core : LPCore)
    (A b c x0 : PyBlitzArr) (lam mu : Option PyBlitzArr) : Except PyErr PyBlitzArr :=
  match lpSolveChecks A b c x0 lam mu with
  | some e => Except.error e
  | none =>
      -- the wrapper array is a fresh copy of x0; the core runs on it
      match core strategy A.data b.data c.data x0.data (dualsData lam mu) with
      | Except.error msg => Except.error (PyErr.runtimeError msg)
      | Except.ok out =>
          Except.ok ⟨NPY_FLOAT64, [x0.shape.getD 0 0 / 2],
            out.take (x0.shape.getD 0 0 / 2)⟩

/-- A store of array buffers: allocation counter and contents map. -/
structure Heap where
  next : ℕ
  mem : ℕ → List ℚ

/-- Allocate a fresh buffer holding `v` (`PyBlitzArray_SimpleNew`
followed by the copy-assignment from `x0`). -/
def Heap.alloc (h : Heap) (v : List ℚ) : ℕ × Heap :=
  (h.next, ⟨h.next + 1, fun i => if i = h.next then v else h.mem i⟩)

/-- Overwrite buffer `i` with `v` (in-place mutation by the core). -/
def Heap.write (h : Heap) (i : ℕ) (v : List ℚ) : Heap :=
  ⟨h.next, fun j => if j = i then v else h.mem j⟩

/-- An array object whose data buffer lives in the heap. -/
structure PyArrRef where
  type_num : ℕ
  shape : List ℕ
  id : ℕ

/-- View a heap-backed array as a value array (for the validations,
which read only dtype and shape). -/
def refArr (h : Heap) (r : PyArrRef) : PyBlitzArr :=
  ⟨r.type_num, r.shape, h.mem r.id⟩

/-- The post-validation body of the binding, on the store `h1` in which
the wrapper buffer `wid` (a fresh copy of `x0`) has been allocated: run
the core on the wrapper buffer, write the result back to it, and return
it with the halved leading shape. -/
def dualsMem (h1 : Heap) : Option PyArrRef → Option PyArrRef → Option (List ℚ × List ℚ)
  | some l, some m => some (h1.mem l.id, h1.mem m.id)
  | _, _ => none

def solveHeapRun (strategy : Strategy) (core : LPCore) (h1 : Heap) (wid : ℕ)
    (A b c x0 : PyArrRef) (lam mu : Option PyArrRef) : Heap × Except PyErr PyArrRef :=
  match core strategy (h1.mem A.id) (h1.mem b.id) (h1.mem c.id) (h1.mem wid)
      (dualsMem h1 lam mu) with
  | Except.error msg => (h1, Except.error (PyErr.runtimeError msg))
  | Except.ok out =>
      (h1.write wid out, Except.ok ⟨NPY_FLOAT64, [x0.shape.getD 0 0 / 2], wid⟩)

/-- `PyBobMathLpInteriorPoint_solve` with the buffer store explicit:
the caller-supplied `x0` buffer is read once (to initialise the fresh
wrapper buffer) and never written; the core receives, and the binding
writes back to, only the wrapper buffer. -/
def PyBobMathLpInteriorPoint_solve_heap (strategy : Strategy) (core : LPCore)
    (h : Heap) (A b c x0 : PyArrRef) (lam mu : Option PyArrRef) :
    Heap × Except PyErr PyArrRef :=
  match lpSolveChecks (refArr h A) (refArr h b) (refArr h c) (refArr h x0)
      (lam.map (refArr h)) (mu.map (refArr h)) with
  | some e => (h, Except.error e)
  | none =>
      solveHeapRun strategy core (h.alloc (h.mem x0.id)).2 (h.alloc (h.mem x0.id)).1
        A b c x0 lam mu

/-! ### The feasibility predicate (C8) -/

/-- Squared Euclidean norm of the first `k` entries of `v`. -/
def sqNorm (v : ℕ → ℚ) (k : ℕ) : ℚ := ∑ i in Finset.range k, v i ^ 2

/-- Row `i` of the product `A·x` for an `M × N` matrix. -/
def matVec (A : ℕ → ℕ → ℚ) (x : ℕ → ℚ) (N i : ℕ) : ℚ :=
  ∑ j in Finset.range N, A i j * x j

/-- Entry `j` of the product `Aᵗ·lam` for an `M × N` matrix. -/
def matTVec (A : ℕ → ℕ → ℚ) (lam : ℕ → ℚ) (M j : ℕ) : ℚ :=
  ∑ i in Finset.range M, A i j * lam i

/-- Modelled from the spec: the C++ implementation of
`bob::math::LPInteriorPoint::isFeasible` is not among the available
sources (only the binding `PyBobMathLpInteriorPoint_is_feasible`,
which forwards to it, is).  Spec 4.1: "returns true iff
`‖Ax−b‖ < epsilon` AND `x ≥ 0` componentwise AND `‖Aᵗλ+μ−c‖ < epsilon`
AND `μ ≥ 0` componentwise.  Pure predicate, no mutation."  Vectors are
functions with explicit extents; over ℚ the Euclidean comparison
`‖v‖ < ε` is phrased by the equivalent squared form `Σ v_i² < ε²`. -/
def isFeasible (M N : ℕ) (eps : ℚ) (A : ℕ → ℕ → ℚ) (b c x lam mu : ℕ → ℚ) : Bool :=
  decide (sqNorm (fun i => matVec A x N i - b i) M < eps ^ 2) &&
  decide (∀ i < N, 0 ≤ x i) &&
  decide (sqNorm (fun j => matTVec A lam M j + mu j - c j) N < eps ^ 2) &&
  decide (∀ j < N, 0 ≤ mu j)

theorem segSum_split (y : ℕ → ℚ) {a b c : ℕ} (hab : a ≤ b) (hbc : b ≤ c) :
    segSum y a c = segSum y a b + segSum y b c := by
  unfold segSum
  rw [Finset.sum_Ico_consecutive _ hab hbc]

theorem segSum_succ_top (y : ℕ → ℚ) {a b : ℕ} (hab : a ≤ b) :
    segSum y a (b + 1) = segSum y a b + y b := by
  unfold segSum
  rw [Finset.sum_Ico_succ_top hab]

theorem segSum_single (y : ℕ → ℚ) (a : ℕ) : segSum y a (a + 1) = y a := by
  unfold segSum
  rw [Finset.sum_Ico_succ_top (le_refl a)]
  simp

/-- Merging a violating pair of good adjacent blocks (the C++ pooling
assignment) yields a good block. -/
theorem merge_good (y : ℕ → ℚ) (p c : Block) (hp : GoodBlock y p) (hc : GoodBlock y c)
    (hadj : c.index = p.index + p.len) (hge : c.ghat ≤ p.ghat) :
    GoodBlock y ⟨p.index, p.len + c.len,
      p.ghat + ((c.len : ℚ) / ((p.len : ℚ) + (c.len : ℚ))) * (c.ghat - p.ghat)⟩ := by
  have hLp : (0 : ℚ) < (p.len : ℚ) := by exact_mod_cast hp.len_pos
  have hLc : (0 : ℚ) < (c.len : ℚ) := by exact_mod_cast hc.len_pos
  have hD : (0 : ℚ) < (p.len : ℚ) + (c.len : ℚ) := by linarith
  set m : ℚ := p.ghat + ((c.len : ℚ) / ((p.len : ℚ) + (c.len : ℚ))) * (c.ghat - p.ghat)
    with hm_def
  have hm : ((p.len : ℚ) + (c.len : ℚ)) * m = (p.len : ℚ) * p.ghat + (c.len : ℚ) * c.ghat := by
    rw [hm_def]
    field_simp
    ring
  have hmle : m ≤ p.ghat := by nlinarith [hm, mul_le_mul_of_nonneg_left hge (le_of_lt hLc)]
  have hsum : segSum y p.index (p.index + (p.len + c.len)) =
      (p.len : ℚ) * p.ghat + (c.len : ℚ) * c.ghat := by
    have h1 : p.index ≤ p.index + p.len := Nat.le_add_right _ _
    have h2 : p.index + p.len ≤ p.index + (p.len + c.len) := by omega
    rw [segSum_split y h1 h2, hp.mean_eq]
    have h3 : segSum y (p.index + p.len) (p.index + (p.len + c.len)) =
        segSum y c.index (c.index + c.len) := by
      rw [hadj]; congr 1; omega
    rw [h3, hc.mean_eq]
  refine ⟨by simp [Nat.add_pos_left hp.len_pos], ?_, ?_⟩
  · show segSum y p.index (p.index + (p.len + c.len)) = ((p.len + c.len : ℕ) : ℚ) * m
    rw [hsum]
    push_cast
    linarith [hm]
  · intro q hq1 hq2
    simp only at hq1 hq2 ⊢
    by_cases hcase : q < p.index + p.len
    · -- q lies in the former left block
      have hcnt : (0 : ℚ) ≤ ((q + 1 - p.index : ℕ) : ℚ) := by positivity
      calc ((q + 1 - p.index : ℕ) : ℚ) * m
          ≤ ((q + 1 - p.index : ℕ) : ℚ) * p.ghat := by
            exact mul_le_mul_of_nonneg_left hmle hcnt
        _ ≤ segSum y p.index (q + 1) := hp.init_ge q hq1 hcase
    · -- q lies in the former right block
      push_neg at hcase
      have hq3 : c.index ≤ q := by omega
      have hq4 : q < c.index + c.len := by omega
      have hsplit : segSum y p.index (q + 1) =
          segSum y p.index c.index + segSum y c.index (q + 1) := by
        refine segSum_split y ?_ ?_ <;> omega
      have hleft : segSum y p.index c.index = (p.len : ℚ) * p.ghat := by
        rw [hadj]; exact hp.mean_eq
      have hright : ((q + 1 - c.index : ℕ) : ℚ) * c.ghat ≤ segSum y c.index (q + 1) :=
        hc.init_ge q hq3 hq4
      set t : ℚ := ((q + 1 - c.index : ℕ) : ℚ) with ht_def
      have ht0 : (0 : ℚ) ≤ t := by positivity
      have htc : t ≤ (c.len : ℚ) := by
        rw [ht_def]
        exact_mod_cast Nat.le_of_lt_succ (by omega)
      have hcnt : ((q + 1 - p.index : ℕ) : ℚ) = (p.len : ℚ) + t := by
        rw [ht_def]
        have e1 : q + 1 - p.index = p.len + (q + 1 - c.index) := by omega
        rw [e1]
        push_cast
        ring
      rw [hcnt, hsplit, hleft]
      -- key algebraic identity: D * (Lp*gp + t*gc - (Lp+t)*m) = Lp*(Lc-t)*(gp-gc) ≥ 0
      have key : ((p.len : ℚ) + (c.len : ℚ)) *
          (((p.len : ℚ) * p.ghat + t * c.ghat) - ((p.len : ℚ) + t) * m) =
          (p.len : ℚ) * ((c.len : ℚ) - t) * (p.ghat - c.ghat) := by
        linear_combination (-((p.len : ℚ) + t)) * hm
      have hfac : (0 : ℚ) ≤ (p.len : ℚ) * ((c.len : ℚ) - t) * (p.ghat - c.ghat) := by
        have := sub_nonneg.mpr htc
        have := sub_nonneg.mpr hge
        positivity
      have hpos : (0 : ℚ) ≤ ((p.len : ℚ) * p.ghat + t * c.ghat) - ((p.len : ℚ) + t) * m := by
        nlinarith [key, hfac, hD]
      linarith [hright]

theorem pool_nil : pool [] = [] := by
  simp [pool]

theorem pool_single (b : Block) : pool [b] = [b] := by
  simp [pool]

theorem pool_cons2 (cur prev : Block) (rest : List Block) :
    pool (cur :: prev :: rest) =
      if prev.ghat ≥ cur.ghat then
        pool (⟨prev.index, prev.len + cur.len,
               prev.ghat + ((cur.len : ℚ) / ((prev.len : ℚ) + (cur.len : ℚ))) *
                 (cur.ghat - prev.ghat)⟩ :: rest)
      else cur :: prev :: rest := by
  rw [pool]

/-- The pooling loop preserves the stack invariant: if the stack tiles
`[0, n)`, all blocks are good, and the stack is strictly ordered below
the top, then after pooling the whole stack is strictly ordered (and
still tiles `[0, n)` with good blocks). -/
theorem pool_inv (y : ℕ → ℚ) :
    ∀ (k : ℕ) (s : List Block) (n : ℕ), s.length ≤ k → tiles s n →
      (∀ b ∈ s, GoodBlock y b) → List.Chain' StrictAbove s.tail →
      tiles (pool s) n ∧ (∀ b ∈ pool s, GoodBlock y b) ∧
        List.Chain' StrictAbove (pool s) := by
  intro k
  induction k with
  | zero =>
      intro s n hlen htiles hgood hchain
      have h0 : s = [] := List.length_eq_zero.mp (Nat.le_zero.mp hlen)
      subst h0
      rw [pool_nil]
      exact ⟨htiles, hgood, List.chain'_nil⟩
  | succ k ih =>
      intro s n hlen htiles hgood hchain
      match s with
      | [] =>
          rw [pool_nil]
          exact ⟨htiles, hgood, List.chain'_nil⟩
      | [b] =>
          rw [pool_single]
          exact ⟨htiles, hgood, List.chain'_singleton b⟩
      | cur :: prev :: rest =>
          rw [pool_cons2]
          obtain ⟨h1, h2, h3⟩ := htiles
          by_cases hge : prev.ghat ≥ cur.ghat
          · rw [if_pos hge]
            set merged : Block := ⟨prev.index, prev.len + cur.len,
              prev.ghat + ((cur.len : ℚ) / ((prev.len : ℚ) + (cur.len : ℚ))) *
                (cur.ghat - prev.ghat)⟩ with hmerged
            have hgoodm : GoodBlock y merged :=
              merge_good y prev cur (hgood prev (by simp)) (hgood cur (by simp)) h2.symm hge
            refine ih (merged :: rest) n ?_ ?_ ?_ ?_
            · have := hlen
              simp only [List.length_cons] at this ⊢
              omega
            · refine ⟨?_, ?_⟩
              · show merged.index + merged.len = n
                simp only [hmerged]
                omega
              · show tiles rest merged.index
                simpa [hmerged] using h3
            · intro b hb
              rcases List.mem_cons.mp hb with hb | hb
              · exact hb ▸ hgoodm
              · exact hgood b (by simp [hb])
            · simpa using hchain.tail
          · rw [if_neg hge]
            push_neg at hge
            exact ⟨⟨h1, h2, h3⟩, hgood, List.chain'_cons.mpr ⟨hge, hchain⟩⟩

/-- A freshly pushed singleton block is good. -/
theorem singleton_good (y : ℕ → ℚ) (j : ℕ) : GoodBlock y ⟨j, 1, y j⟩ := by
  refine ⟨Nat.one_pos, ?_, ?_⟩
  · show segSum y j (j + 1) = ((1 : ℕ) : ℚ) * y j
    rw [segSum_single]
    simp
  · intro q hq1 hq2
    change j ≤ q at hq1
    change q < j + 1 at hq2
    have hq : q = j := by omega
    subst hq
    simp [segSum_single]

/-- Invariant of the first pass, per processed-input length: after
processing `y(0) .. y(k)`, the stack tiles `[0, k+1)`, all blocks are
good, and block means strictly increase from bottom to top. -/
theorem pavx_1_inv_aux (y : ℕ → ℚ) : ∀ k : ℕ,
    tiles ((List.range' 1 k).foldl (fun s j => pool (⟨j, 1, y j⟩ :: s)) [⟨0, 1, y 0⟩]) (k + 1) ∧
    (∀ b ∈ (List.range' 1 k).foldl (fun s j => pool (⟨j, 1, y j⟩ :: s)) [⟨0, 1, y 0⟩],
      GoodBlock y b) ∧
    List.Chain' StrictAbove
      ((List.range' 1 k).foldl (fun s j => pool (⟨j, 1, y j⟩ :: s)) [⟨0, 1, y 0⟩]) := by
  intro k
  induction k with
  | zero =>
      refine ⟨?_, ?_, ?_⟩
      · exact ⟨rfl, rfl⟩
      · intro b hb
        rcases List.mem_singleton.mp hb with rfl
        exact singleton_good y 0
      · exact List.chain'_singleton _
  | succ k ih =>
      obtain ⟨htiles, hgood, hchain⟩ := ih
      set prior := (List.range' 1 k).foldl (fun s j => pool (⟨j, 1, y j⟩ :: s)) [⟨0, 1, y 0⟩]
        with hstk
      have hconcat : List.range' 1 (k + 1) = List.range' 1 k ++ [1 + k] := by
        simpa using @List.range'_concat 1 1 k
      rw [hconcat, List.foldl_append]
      simp only [List.foldl_cons, List.foldl_nil]
      have hpush : tiles (⟨1 + k, 1, y (1 + k)⟩ :: prior) (k + 1 + 1) := by
        refine ⟨?_, ?_⟩
        · show (1 + k) + 1 = k + 1 + 1
          omega
        · show tiles prior (1 + k)
          have h1k : 1 + k = k + 1 := by omega
          rw [h1k]
          exact htiles
      have := pool_inv y (⟨1 + k, 1, y (1 + k)⟩ :: prior).length
        (⟨1 + k, 1, y (1 + k)⟩ :: prior) (k + 1 + 1) (le_refl _) hpush
        (by
          intro b hb
          rcases List.mem_cons.mp hb with rfl | hb
          · exact singleton_good y (1 + k)
          · exact hgood b hb)
        (by simpa using hchain)
      exact this

/-- The `pavx_1` stack invariant for input extent `n ≥ 1`. -/
theorem pavx_1_inv (y : ℕ → ℚ) (n : ℕ) (hn : 1 ≤ n) :
    tiles (pavx_1 y n) n ∧ (∀ b ∈ pavx_1 y n, GoodBlock y b) ∧
      List.Chain' StrictAbove (pavx_1 y n) := by
  have hsub : n - 1 + 1 = n := by omega
  have := pavx_1_inv_aux y (n - 1)
  rw [hsub] at this
  exact this

theorem expandBlocks_append (l1 l2 : List Block) :
    expandBlocks (l1 ++ l2) = expandBlocks l1 ++ expandBlocks l2 := by
  induction l1 with
  | nil => simp [expandBlocks]
  | cons b rest ih => simp [expandBlocks, ih]

/-- Under the tiling invariant, the second pass produces exactly the
left-to-right expansion of the surviving blocks. -/
theorem pavx_2_eq_expand : ∀ (s : List Block) (n : ℕ), tiles s n →
    pavx_2 s n = expandBlocks s.reverse := by
  intro s
  induction s with
  | nil =>
      intro n _
      simp [pavx_2, expandBlocks]
  | cons b rest ih =>
      intro n htiles
      obtain ⟨h1, h2⟩ := htiles
      have hstep : pavx_2 (b :: rest) n =
          pavx_2 rest b.index ++ List.replicate (n - b.index) b.ghat := rfl
      rw [hstep, List.reverse_cons, expandBlocks_append, ih b.index h2]
      have hlen : n - b.index = b.len := by omega
      rw [hlen]
      simp [expandBlocks]

theorem pavx_2_length : ∀ (s : List Block) (n : ℕ), tiles s n →
    (pavx_2 s n).length = n := by
  intro s
  induction s with
  | nil =>
      intro n htiles
      have h0 : n = 0 := htiles
      simp [pavx_2, h0]
  | cons b rest ih =>
      intro n htiles
      obtain ⟨h1, h2⟩ := htiles
      have hstep : pavx_2 (b :: rest) n =
          pavx_2 rest b.index ++ List.replicate (n - b.index) b.ghat := rfl
      rw [hstep, List.length_append, ih b.index h2, List.length_replicate]
      omega

theorem chain'_replicate_le (k : ℕ) (q : ℚ) :
    List.Chain' (· ≤ ·) (List.replicate k q) := by
  induction k with
  | zero => simp
  | succ k ih =>
      rw [List.replicate_succ]
      refine List.chain'_cons'.mpr ⟨?_, ih⟩
      intro z hz
      cases k with
      | zero => simp at hz
      | succ k =>
         rw [List.replicate_succ, List.head?_cons, Option.mem_some_iff] at hz
         exact hz ▸ le_refl q

theorem replicate_getLast (k : ℕ) (hk : 0 < k) (q : ℚ) :
    (List.replicate k q).getLast? = some q := by
  cases k with
  | zero => omega
  | succ k =>
      rw [List.replicate_succ']
      exact List.getLast?_concat _

theorem expandBlocks_head (b : Block) (rest : List Block) (hb : 0 < b.len) :
    (expandBlocks (b :: rest)).head? = some b.ghat := by
  cases hlen : b.len with
  | zero => omega
  | succ k =>
      show (List.replicate b.len b.ghat ++ expandBlocks rest).head? = some b.ghat
      rw [hlen, List.replicate_succ]
      simp

/-- Expanding a left-to-right block list whose means are non-decreasing
(and whose lengths are positive) gives a non-decreasing sequence. -/
theorem expandBlocks_chain (l : List Block) (hpos : ∀ b ∈ l, 0 < b.len)
    (hchain : List.Chain' (fun a b => a.ghat ≤ b.ghat) l) :
    List.Chain' (· ≤ ·) (expandBlocks l) := by
  induction l with
  | nil => simp [expandBlocks]
  | cons b rest ih =>
      show List.Chain' (· ≤ ·) (List.replicate b.len b.ghat ++ expandBlocks rest)
      refine List.chain'_append.mpr ⟨chain'_replicate_le _ _, ?_, ?_⟩
      · exact ih (fun c hc => hpos c (by simp [hc])) hchain.tail
      · intro x hx z hz
        rw [replicate_getLast b.len (hpos b (by simp)) b.ghat, Option.mem_some_iff] at hx
        subst hx
        cases rest with
        | nil => simp [expandBlocks] at hz
        | cons c rest' =>
            rw [expandBlocks_head c rest' (hpos c (by simp)), Option.mem_some_iff] at hz
            subst hz
            exact (List.chain'_cons.mp hchain).1

/-- C1 helper: the final stack of `pavx_1` read left-to-right has
strictly increasing means. -/
theorem pavx_1_reverse_chain (y : ℕ → ℚ) (n : ℕ) (hn : 1 ≤ n) :
    List.Chain' (fun a b => a.ghat < b.ghat) (pavx_1 y n).reverse := by
  have h := (pavx_1_inv y n hn).2.2
  rw [List.chain'_reverse]
  refine h.imp ?_
  intro a b hab
  exact hab

/-- C1 helper: `pavx_` is the expansion of the final stack. -/
theorem pavx__eq_expand (y : ℕ → ℚ) (n : ℕ) (hn : 1 ≤ n) :
    pavx_ y n = expandBlocks (pavx_1 y n).reverse := by
  exact pavx_2_eq_expand (pavx_1 y n) n (pavx_1_inv y n hn).1

theorem pavx__length (y : ℕ → ℚ) (n : ℕ) (hn : 1 ≤ n) :
    (pavx_ y n).length = n :=
  pavx_2_length (pavx_1 y n) n (pavx_1_inv y n hn).1

/-- C1: for every input of extent `n ≥ 1`, the output of `pavx_` (and
hence of the checked `pavx`) is monotonically non-decreasing. -/
theorem pavx_chain_le (y : ℕ → ℚ) (n : ℕ) (hn : 1 ≤ n) :
    List.Chain' (· ≤ ·) (pavx_ y n) := by
  rw [pavx__eq_expand y n hn]
  refine expandBlocks_chain _ ?_ ?_
  · intro b hb
    exact ((pavx_1_inv y n hn).2.1 b (List.mem_reverse.mp hb)).len_pos
  · exact (pavx_1_reverse_chain y n hn).imp (fun a b h => le_of_lt h)

/-- Index-level form of monotonicity of the output. -/
theorem pavx_getD_mono (y : ℕ → ℚ) (n : ℕ) (hn : 1 ≤ n) :
    ∀ i, i + 1 < n → (pavx_ y n).getD i 0 ≤ (pavx_ y n).getD (i + 1) 0 := by
  have hc : List.Chain' (· ≤ ·) (pavx_ y n) := pavx_chain_le y n hn
  have hl : (pavx_ y n).length = n := pavx__length y n hn
  intro i hi
  have h1 : i < (pavx_ y n).length := by omega
  have h2 : i + 1 < (pavx_ y n).length := by omega
  have hg := List.chain'_iff_get.mp hc i (by omega)
  rw [List.getD_eq_get _ _ h1, List.getD_eq_get _ _ h2]
  exact hg

/-- C1: for every finite input sequence of extent `n ≥ 1`, the output
`ghat` produced by `pavx` (and `pavx_`) is monotonically non-decreasing:
`ghat[i] ≤ ghat[i+1]` for every adjacent pair of indices. -/
theorem pavx_monotone (y : ℕ → ℚ) (n : ℕ) (hn : 1 ≤ n) :
    List.Chain' (· ≤ ·) (pavx y n) ∧ List.Chain' (· ≤ ·) (pavx_ y n) ∧
    ∀ i, i + 1 < n → (pavx y n).getD i 0 ≤ (pavx y n).getD (i + 1) 0 := by
  have hc : List.Chain' (· ≤ ·) (pavx_ y n) := pavx_chain_le y n hn
  exact ⟨hc, hc, pavx_getD_mono y n hn⟩

/-- Witness for C1 at the concrete input `y = (3, 1, 2)`. -/
theorem pavx_monotone_witness :
    List.Chain' (· ≤ ·) (pavx (fun i => (([3, 1, 2] : List ℚ)).getD i 0) 3) ∧
    List.Chain' (· ≤ ·) (pavx_ (fun i => (([3, 1, 2] : List ℚ)).getD i 0) 3) ∧
    ∀ i, i + 1 < 3 →
      (pavx (fun i => (([3, 1, 2] : List ℚ)).getD i 0) 3).getD i 0 ≤
        (pavx (fun i => (([3, 1, 2] : List ℚ)).getD i 0) 3).getD (i + 1) 0 :=
  pavx_monotone (fun i => (([3, 1, 2] : List ℚ)).getD i 0) 3 (by norm_num)

theorem widths_sum : ∀ (s : List Block) (n : ℕ), tiles s n →
    ((s.reverse).map Block.len).sum = n := by
  intro s
  induction s with
  | nil =>
      intro n htiles
      have h0 : n = 0 := htiles
      simp [h0]
  | cons b rest ih =>
      intro n htiles
      obtain ⟨h1, h2⟩ := htiles
      rw [List.reverse_cons, List.map_append, List.sum_append, ih b.index h2]
      simp
      omega

theorem stack_length_le : ∀ (s : List Block) (n : ℕ), tiles s n →
    (∀ b ∈ s, 0 < b.len) → s.length ≤ n := by
  intro s
  induction s with
  | nil =>
      intro n _ _
      simp
  | cons b rest ih =>
      intro n htiles hpos
      obtain ⟨h1, h2⟩ := htiles
      have hr : rest.length ≤ b.index := ih b.index h2 (fun c hc => hpos c (by simp [hc]))
      have hb : 0 < b.len := hpos b (by simp)
      simp only [List.length_cons]
      omega

theorem expandWH_map (l : List Block) :
    expandWH (l.map Block.len) (l.map Block.ghat) = expandBlocks l := by
  induction l with
  | nil => simp [expandWH, expandBlocks]
  | cons b rest ih => simp [expandWH, expandBlocks, ih]

/-- C4: for every input of extent `n ≥ 1`, `pavxWidthHeight` returns
`width` and `height` with `sum(width) = n`, equal lengths `k ≤ n`, and
expanding each height width-many times reproduces `ghat` exactly. -/
theorem pavxWidthHeight_consistent (y : ℕ → ℚ) (n : ℕ) (hn : 1 ≤ n) :
    ((pavxWidthHeight y n).1.1).sum = n ∧
    ((pavxWidthHeight y n).1.1).length = ((pavxWidthHeight y n).1.2).length ∧
    ((pavxWidthHeight y n).1.1).length ≤ n ∧
    expandWH (pavxWidthHeight y n).1.1 (pavxWidthHeight y n).1.2 =
      (pavxWidthHeight y n).2 := by
  obtain ⟨htiles, hgood, hchain⟩ := pavx_1_inv y n hn
  refine ⟨widths_sum _ n htiles, by simp [pavxWidthHeight], ?_, ?_⟩
  · show ((pavx_1 y n).reverse.map Block.len).length ≤ n
    rw [List.length_map, List.length_reverse]
    exact stack_length_le _ n htiles (fun b hb => (hgood b hb).len_pos)
  · show expandWH ((pavx_1 y n).reverse.map Block.len)
        ((pavx_1 y n).reverse.map Block.ghat) = pavx_2 (pavx_1 y n) n
    rw [expandWH_map, pavx_2_eq_expand _ n htiles]

/-- Witness for C4 at the concrete input `y = (2, 2, 1, 3)`. -/
theorem pavxWidthHeight_consistent_witness :
    ((pavxWidthHeight (fun i => (([2, 2, 1, 3] : List ℚ)).getD i 0) 4).1.1).sum = 4 ∧
    ((pavxWidthHeight (fun i => (([2, 2, 1, 3] : List ℚ)).getD i 0) 4).1.1).length =
      ((pavxWidthHeight (fun i => (([2, 2, 1, 3] : List ℚ)).getD i 0) 4).1.2).length ∧
    ((pavxWidthHeight (fun i => (([2, 2, 1, 3] : List ℚ)).getD i 0) 4).1.1).length ≤ 4 ∧
    expandWH (pavxWidthHeight (fun i => (([2, 2, 1, 3] : List ℚ)).getD i 0) 4).1.1
        (pavxWidthHeight (fun i => (([2, 2, 1, 3] : List ℚ)).getD i 0) 4).1.2 =
      (pavxWidthHeight (fun i => (([2, 2, 1, 3] : List ℚ)).getD i 0) 4).2 :=
  pavxWidthHeight_consistent (fun i => (([2, 2, 1, 3] : List ℚ)).getD i 0) 4 (by norm_num)

/-- C10: for every input of extent `n ≥ 1`, the `height` vector returned
by `pavxWidthHeight` is strictly increasing (adjacent surviving blocks
never have equal means, because the pooling loop merges on `≥`). -/
theorem pavxWidthHeight_height_strict (y : ℕ → ℚ) (n : ℕ) (hn : 1 ≤ n) :
    List.Chain' (· < ·) ((pavxWidthHeight y n).1.2) := by
  show List.Chain' (· < ·) ((pavx_1 y n).reverse.map Block.ghat)
  rw [List.chain'_map]
  exact pavx_1_reverse_chain y n hn

/-- Witness for C10 at the concrete input `y = (5, 1, 1, 2, 2)` (equal
adjacent means get merged, leaving strictly increasing heights). -/
theorem pavxWidthHeight_height_strict_witness :
    List.Chain' (· < ·)
      ((pavxWidthHeight (fun i => (([5, 1, 1, 2, 2] : List ℚ)).getD i 0) 5).1.2) :=
  pavxWidthHeight_height_strict (fun i => (([5, 1, 1, 2, 2] : List ℚ)).getD i 0) 5
    (by norm_num)

/-! ### C3: the source pooling pass refines the specification text -/

theorem specPool_nil : specPool [] = [] := by
  simp [specPool]

theorem specPool_single (b : Block) : specPool [b] = [b] := by
  simp [specPool]

theorem specPool_cons2 (cur prev : Block) (rest : List Block) :
    specPool (cur :: prev :: rest) =
      if cur.ghat ≤ prev.ghat then
        specPool (⟨prev.index, prev.len + cur.len,
               prev.ghat + ((cur.len : ℚ) / ((prev.len : ℚ) + (cur.len : ℚ))) *
                 (cur.ghat - prev.ghat)⟩ :: rest)
      else cur :: prev :: rest := by
  rw [specPool]

theorem specPool_eq_pool : ∀ (k : ℕ) (s : List Block), s.length ≤ k →
    specPool s = pool s := by
  intro k
  induction k with
  | zero =>
      intro s hlen
      have h0 : s = [] := List.length_eq_zero.mp (Nat.le_zero.mp hlen)
      subst h0
      rw [specPool_nil, pool_nil]
  | succ k ih =>
      intro s hlen
      match s with
      | [] => rw [specPool_nil, pool_nil]
      | [b] => rw [specPool_single, pool_single]
      | cur :: prev :: rest =>
          rw [specPool_cons2, pool_cons2]
          simp only [ge_iff_le]
          by_cases h : cur.ghat ≤ prev.ghat
          · rw [if_pos h, if_pos h]
            refine ih _ ?_
            simp only [List.length_cons] at hlen ⊢
            omega
          · rw [if_neg h, if_neg h]

/-- C3: the pooling pass of the source is exactly the pass described by
the spec (push; merge while the newest block mean is ≤ its left
neighbour mean, with summed length and weighted-average mean), and the
second pass fills each surviving block span with its final mean. -/
theorem pavx_refines_spec (y : ℕ → ℚ) (n : ℕ) (hn : 1 ≤ n) :
    specBlocks y n = pavx_1 y n ∧ pavx_ y n = pavxSpec y n := by
  have hblocks : specBlocks y n = pavx_1 y n := by
    unfold specBlocks pavx_1
    have hstep : (fun (s : List Block) (j : ℕ) => specPool (⟨j, 1, y j⟩ :: s)) =
        (fun (s : List Block) (j : ℕ) => pool (⟨j, 1, y j⟩ :: s)) := by
      funext s j
      exact specPool_eq_pool (⟨j, 1, y j⟩ :: s).length _ (le_refl _)
    rw [hstep]
  refine ⟨hblocks, ?_⟩
  rw [pavx__eq_expand y n hn]
  unfold pavxSpec
  rw [hblocks]

/-- Witness for C3 at the concrete input `y = (1, 5, 2)`. -/
theorem pavx_refines_spec_witness :
    specBlocks (fun i => (([1, 5, 2] : List ℚ)).getD i 0) 3 =
      pavx_1 (fun i => (([1, 5, 2] : List ℚ)).getD i 0) 3 ∧
    pavx_ (fun i => (([1, 5, 2] : List ℚ)).getD i 0) 3 =
      pavxSpec (fun i => (([1, 5, 2] : List ℚ)).getD i 0) 3 :=
  pavx_refines_spec (fun i => (([1, 5, 2] : List ℚ)).getD i 0) 3 (by norm_num)

/-! ### C5: idempotence -/

theorem map_range'_const (y : ℕ → ℚ) (c : ℚ) : ∀ (k a : ℕ),
    (∀ i, a ≤ i → i < a + k → y i = c) →
    (List.range' a k).map y = List.replicate k c := by
  intro k
  induction k with
  | zero => intro a _; simp
  | succ k ih =>
      intro a hconst
      rw [List.range'_succ, List.map_cons, hconst a (le_refl a) (by omega),
        List.replicate_succ]
      congr 1
      exact ih (a + 1) (fun i h1 h2 => hconst i (by omega) (by omega))

theorem expand_const (y : ℕ → ℚ) : ∀ (s : List Block) (m : ℕ), tiles s m →
    ConstBlocks y s → expandBlocks s.reverse = (List.range' 0 m).map y := by
  intro s
  induction s with
  | nil =>
      intro m htiles _
      have h0 : m = 0 := htiles
      simp [expandBlocks, h0]
  | cons b rest ih =>
      intro m htiles hconst
      obtain ⟨h1, h2⟩ := htiles
      rw [List.reverse_cons, expandBlocks_append,
        ih b.index h2 (fun u hu => hconst u (by simp [hu]))]
      have hrep : expandBlocks [b] = List.replicate b.len b.ghat := by
        simp [expandBlocks]
      rw [hrep, ← map_range'_const y b.ghat b.len b.index (hconst b (by simp)),
        ← List.map_append]
      have happ : List.range' 0 b.index ++ List.range' b.index b.len =
          List.range' 0 (b.len + b.index) := by
        have := List.range'_append 0 b.index b.len 1
        simpa using this
      rw [happ]
      have hm : b.len + b.index = m := by omega
      rw [hm]

theorem pavx_1_const_aux (y : ℕ → ℚ) : ∀ k : ℕ,
    (∀ i, i + 1 ≤ k → y i ≤ y (i + 1)) →
    ConstBlocks y
      ((List.range' 1 k).foldl (fun s j => pool (⟨j, 1, y j⟩ :: s)) [⟨0, 1, y 0⟩]) := by
  intro k
  induction k with
  | zero =>
      intro _ b hb i h1 h2
      rcases List.mem_singleton.mp hb with rfl
      change 0 ≤ i at h1
      change i < 0 + 1 at h2
      have hi : i = 0 := by omega
      subst hi
      rfl
  | succ k ih =>
      intro hmono
      have ihc := ih (fun i h => hmono i (by omega))
      obtain ⟨htiles, hgood, hchain⟩ := pavx_1_inv_aux y k
      have hconcat : List.range' 1 (k + 1) = List.range' 1 k ++ [1 + k] := by
        simpa using @List.range'_concat 1 1 k
      rw [hconcat, List.foldl_append]
      simp only [List.foldl_cons, List.foldl_nil]
      set s := (List.range' 1 k).foldl (fun s j => pool (⟨j, 1, y j⟩ :: s)) [⟨0, 1, y 0⟩]
        with hs
      match hsm : s with
      | [] =>
          exact absurd htiles (by simp [tiles])
      | t :: rest =>
          have htlen : 0 < t.len := (hgood t (by simp)).len_pos
          have hspan : t.index + t.len = k + 1 := htiles.1
          have hlast : y k = t.ghat :=
            ihc t (by simp) k (by omega) (by omega)
          have hyk : y k ≤ y (k + 1) := hmono k (le_refl _)
          have h1k : (1 + k) = k + 1 := by omega
          by_cases hcmp : t.ghat ≥ y (1 + k)
          · -- the new value ties the top mean; one merge absorbs it
            have heq : y (1 + k) = t.ghat := by
              rw [h1k]
              rw [h1k] at hcmp
              exact le_antisymm hcmp (hlast ▸ hyk)
            rw [pool_cons2, if_pos hcmp]
            have hmg : (⟨t.index, t.len + (⟨1 + k, 1, y (1 + k)⟩ : Block).len,
                t.ghat + (((⟨1 + k, 1, y (1 + k)⟩ : Block).len : ℚ) /
                  ((t.len : ℚ) + ((⟨1 + k, 1, y (1 + k)⟩ : Block).len : ℚ))) *
                  ((⟨1 + k, 1, y (1 + k)⟩ : Block).ghat - t.ghat)⟩ : Block) =
                ⟨t.index, t.len + 1, t.ghat⟩ := by
              simp [heq]
            rw [hmg]
            have hconstm : ∀ i, t.index ≤ i → i < t.index + (t.len + 1) → y i = t.ghat := by
              intro i hi1 hi2
              by_cases hc : i < t.index + t.len
              · exact ihc t (by simp) i hi1 hc
              · have : i = k + 1 := by omega
                subst this
                rw [← h1k]
                exact heq
            match rest with
            | [] =>
                rw [pool_single]
                intro u hu
                rcases List.mem_singleton.mp hu with rfl
                exact hconstm
            | u :: rest' =>
                have hlt : u.ghat < t.ghat := (List.chain'_cons.mp hchain).1
                rw [pool_cons2, if_neg (by simpa using not_le.mpr hlt)]
                intro v hv
                rcases List.mem_cons.mp hv with rfl | hv
                · exact hconstm
                · exact ihc v (by simp [hv])
          · -- strictly larger value: a new block is pushed and survives
            rw [pool_cons2, if_neg hcmp]
            push_neg at hcmp
            intro v hv
            rcases List.mem_cons.mp hv with rfl | hv
            · intro i hi1 hi2
              change 1 + k ≤ i at hi1
              change i < 1 + k + 1 at hi2
              have : i = 1 + k := by omega
              subst this
              rfl
            · exact ihc v hv

/-- Monotone inputs are fixed points: on a non-decreasing input the
algorithm returns the input itself. -/
theorem pavx__mono_fixed (y : ℕ → ℚ) (n : ℕ) (hn : 1 ≤ n)
    (hmono : ∀ i, i + 1 < n → y i ≤ y (i + 1)) :
    pavx_ y n = (List.range' 0 n).map y := by
  rw [pavx__eq_expand y n hn]
  refine expand_const y (pavx_1 y n) n (pavx_1_inv y n hn).1 ?_
  have h := pavx_1_const_aux y (n - 1) (fun i hi => hmono i (by omega))
  exact h

theorem map_getD_range' (l : List ℚ) :
    (List.range' 0 l.length).map (fun i => l.getD i 0) = l := by
  apply List.ext_get
  · simp
  · intro i h1 h2
    rw [List.get_map]
    have hi : i < l.length := h2
    rw [List.getD_eq_get l 0 (by simpa using hi)]
    congr 1
    simp [List.get_range']

/-- C5: `pavx` is idempotent -- applying it to its own output returns
the output unchanged -- and every already non-decreasing input is a
fixed point (returned as-is). -/
theorem pavx_idempotent (y : ℕ → ℚ) (n : ℕ) (hn : 1 ≤ n) :
    pavx (fun i => (pavx y n).getD i 0) n = pavx y n ∧
    ((∀ i, i + 1 < n → y i ≤ y (i + 1)) → pavx y n = (List.range' 0 n).map y) := by
  constructor
  · have hmono' : ∀ i, i + 1 < n → (pavx_ y n).getD i 0 ≤ (pavx_ y n).getD (i + 1) 0 :=
      pavx_getD_mono y n hn
    show pavx_ (fun i => (pavx_ y n).getD i 0) n = pavx_ y n
    rw [pavx__mono_fixed (fun i => (pavx_ y n).getD i 0) n hn hmono']
    have hlen : (pavx_ y n).length = n := pavx__length y n hn
    calc (List.range' 0 n).map (fun i => (pavx_ y n).getD i 0)
        = (List.range' 0 (pavx_ y n).length).map (fun i => (pavx_ y n).getD i 0) := by
          rw [hlen]
      _ = pavx_ y n := map_getD_range' _
  · intro hmono
    exact pavx__mono_fixed y n hn hmono

/-- Witness for C5 at the concrete input `y = (4, 2, 3)`. -/
theorem pavx_idempotent_witness :
    pavx (fun i => (pavx (fun i => (([4, 2, 3] : List ℚ)).getD i 0) 3).getD i 0) 3 =
      pavx (fun i => (([4, 2, 3] : List ℚ)).getD i 0) 3 ∧
    ((∀ i, i + 1 < 3 → (([4, 2, 3] : List ℚ)).getD i 0 ≤ (([4, 2, 3] : List ℚ)).getD (i + 1) 0) →
      pavx (fun i => (([4, 2, 3] : List ℚ)).getD i 0) 3 =
        (List.range' 0 3).map (fun i => (([4, 2, 3] : List ℚ)).getD i 0)) :=
  pavx_idempotent (fun i => (([4, 2, 3] : List ℚ)).getD i 0) 3 (by norm_num)

/-! ### C2: least-squares optimality -/

theorem tiles_span_le : ∀ (s : List Block) (m : ℕ), tiles s m →
    ∀ b ∈ s, b.index + b.len ≤ m := by
  intro s
  induction s with
  | nil =>
      intro m _ b hb
      simp at hb
  | cons t rest ih =>
      intro m htiles b hb
      obtain ⟨h1, h2⟩ := htiles
      rcases List.mem_cons.mp hb with rfl | hb
      · omega
      · have := ih t.index h2 b hb
        omega

theorem getD_replicate_lt (k j : ℕ) (c d : ℚ) (h : j < k) :
    (List.replicate k c).getD j d = c := by
  rw [List.getD_eq_getElem _ _ (by simpa using h)]
  simp

/-- Inside a surviving block, the filled output equals the block mean. -/
theorem pavx_2_getD_block : ∀ (s : List Block) (n : ℕ), tiles s n →
    ∀ b ∈ s, ∀ i, b.index ≤ i → i < b.index + b.len →
      (pavx_2 s n).getD i 0 = b.ghat := by
  intro s
  induction s with
  | nil =>
      intro n _ b hb
      simp at hb
  | cons t rest ih =>
      intro n htiles b hb i hi1 hi2
      obtain ⟨h1, h2⟩ := htiles
      have hstep : pavx_2 (t :: rest) n =
          pavx_2 rest t.index ++ List.replicate (n - t.index) t.ghat := rfl
      have hllen : (pavx_2 rest t.index).length = t.index := pavx_2_length rest t.index h2
      rcases List.mem_cons.mp hb with hbt | hb
      · subst hbt
        rw [hstep,
          List.getD_append_right _ _ _ _ (by omega : (pavx_2 rest b.index).length ≤ i),
          hllen]
        exact getD_replicate_lt _ _ _ _ (by omega)
      · have hspan : b.index + b.len ≤ t.index := tiles_span_le rest t.index h2 b hb
        rw [hstep, List.getD_append _ _ _ _ (by omega : i < (pavx_2 rest t.index).length)]
        exact ih t.index h2 b hb i hi1 hi2

/-- Abel-summation core of the optimality proof: on one block `[a, a+L)`
with exact mean `m` and non-negative left-aligned deviation sums, any
non-decreasing `g` satisfies `Σ (y i - m) g i ≤ 0`. -/
theorem block_abel (y g : ℕ → ℚ) (a L : ℕ) (hL : 0 < L) (m : ℚ)
    (hmean : segSum y a (a + L) = (L : ℚ) * m)
    (hinit : ∀ q, a ≤ q → q < a + L → ((q + 1 - a : ℕ) : ℚ) * m ≤ segSum y a (q + 1))
    (hg : ∀ i, a ≤ i → i + 1 < a + L → g i ≤ g (i + 1)) :
    ∑ i in Finset.Ico a (a + L), (y i - m) * g i ≤ 0 := by
  have key : ∀ k : ℕ, k < L →
      ∑ i in Finset.Ico a (a + (k + 1)), (y i - m) * g i ≤
        (segSum y a (a + (k + 1)) - ((k + 1 : ℕ) : ℚ) * m) * g (a + k) := by
    intro k
    induction k with
    | zero =>
        intro _
        have hico : ∑ i in Finset.Ico a (a + 1), (y i - m) * g i = (y a - m) * g a := by
          rw [Finset.sum_Ico_succ_top (le_refl a)]
          simp
        rw [hico, segSum_single]
        push_cast
        apply le_of_eq
        ring
    | succ k ihk =>
        intro hk1
        have hk : k < L := by omega
        have ih := ihk hk
        have hS : 0 ≤ segSum y a (a + (k + 1)) - ((k + 1 : ℕ) : ℚ) * m := by
          have hq := hinit (a + k) (by omega) (by omega)
          have he : a + k + 1 - a = k + 1 := by omega
          rw [he] at hq
          have he2 : a + k + 1 = a + (k + 1) := by omega
          rw [he2] at hq
          linarith
        have hgk : g (a + k) ≤ g (a + (k + 1)) := by
          have := hg (a + k) (by omega) (by omega)
          have he : a + k + 1 = a + (k + 1) := by omega
          rw [he] at this
          exact this
        have hsplit : a + (k + 1 + 1) = (a + (k + 1)) + 1 := by omega
        rw [hsplit, Finset.sum_Ico_succ_top (by omega : a ≤ a + (k + 1)),
          segSum_succ_top y (by omega : a ≤ a + (k + 1))]
        have hstep1 : ∑ i in Finset.Ico a (a + (k + 1)), (y i - m) * g i ≤
            (segSum y a (a + (k + 1)) - ((k + 1 : ℕ) : ℚ) * m) * g (a + (k + 1)) := by
          calc ∑ i in Finset.Ico a (a + (k + 1)), (y i - m) * g i
              ≤ (segSum y a (a + (k + 1)) - ((k + 1 : ℕ) : ℚ) * m) * g (a + k) := ih
            _ ≤ (segSum y a (a + (k + 1)) - ((k + 1 : ℕ) : ℚ) * m) * g (a + (k + 1)) :=
                mul_le_mul_of_nonneg_left hgk hS
        have hcast : ((k + 1 + 1 : ℕ) : ℚ) = ((k + 1 : ℕ) : ℚ) + 1 := by push_cast; ring
        rw [hcast]
        nlinarith [hstep1]
  have hL1 : L - 1 < L := by omega
  have hfin := key (L - 1) hL1
  have he : L - 1 + 1 = L := by omega
  rw [he] at hfin
  rw [hmean] at hfin
  simpa using hfin

/-- One-block variational inequality: `Σ (y i - m)(g i - m) ≤ 0`. -/
theorem block_vi (y g : ℕ → ℚ) (a L : ℕ) (hL : 0 < L) (m : ℚ)
    (hmean : segSum y a (a + L) = (L : ℚ) * m)
    (hinit : ∀ q, a ≤ q → q < a + L → ((q + 1 - a : ℕ) : ℚ) * m ≤ segSum y a (q + 1))
    (hg : ∀ i, a ≤ i → i + 1 < a + L → g i ≤ g (i + 1)) :
    ∑ i in Finset.Ico a (a + L), (y i - m) * (g i - m) ≤ 0 := by
  have h1 := block_abel y g a L hL m hmean hinit hg
  have h2 : ∑ i in Finset.Ico a (a + L), (y i - m) = 0 := by
    rw [Finset.sum_sub_distrib, Finset.sum_const, Nat.card_Ico]
    have hcard : a + L - a = L := by omega
    rw [hcard, nsmul_eq_mul]
    have : ∑ i in Finset.Ico a (a + L), y i = segSum y a (a + L) := rfl
    rw [this, hmean]
    ring
  have hsplit : ∑ i in Finset.Ico a (a + L), (y i - m) * (g i - m) =
      (∑ i in Finset.Ico a (a + L), (y i - m) * g i) -
        m * ∑ i in Finset.Ico a (a + L), (y i - m) := by
    rw [Finset.mul_sum, ← Finset.sum_sub_distrib]
    exact Finset.sum_congr rfl (fun i _ => by ring)
  rw [hsplit, h2]
  linarith

/-- Stack-level variational inequality: the whole output `hatg` (equal
to the block mean on every block) satisfies
`Σ (y i - hatg i)(g i - hatg i) ≤ 0` against every non-decreasing `g`. -/
theorem stack_vi (y hatg g : ℕ → ℚ) : ∀ (s : List Block) (n : ℕ), tiles s n →
    (∀ b ∈ s, GoodBlock y b) →
    (∀ b ∈ s, ∀ i, b.index ≤ i → i < b.index + b.len → hatg i = b.ghat) →
    (∀ i, i + 1 < n → g i ≤ g (i + 1)) →
    ∑ i in Finset.range n, (y i - hatg i) * (g i - hatg i) ≤ 0 := by
  intro s
  induction s with
  | nil =>
      intro n htiles _ _ _
      have h0 : n = 0 := htiles
      simp [h0]
  | cons b rest ih =>
      intro n htiles hgood hhat hg
      obtain ⟨h1, h2⟩ := htiles
      have hbn : b.index ≤ n := by omega
      rw [Finset.range_eq_Ico,
        ← Finset.sum_Ico_consecutive _ (Nat.zero_le b.index) hbn]
      have hleft : ∑ i in Finset.Ico 0 b.index, (y i - hatg i) * (g i - hatg i) ≤ 0 := by
        rw [← Finset.range_eq_Ico]
        exact ih b.index h2 (fun u hu => hgood u (by simp [hu]))
          (fun u hu => hhat u (by simp [hu]))
          (fun i hi => hg i (by omega))
      have hright : ∑ i in Finset.Ico b.index n, (y i - hatg i) * (g i - hatg i) ≤ 0 := by
        have hcongr : ∑ i in Finset.Ico b.index n, (y i - hatg i) * (g i - hatg i) =
            ∑ i in Finset.Ico b.index (b.index + b.len), (y i - b.ghat) * (g i - b.ghat) := by
          rw [← h1]
          refine Finset.sum_congr rfl ?_
          intro i hi
          have hmem := Finset.mem_Ico.mp hi
          rw [hhat b (by simp) i hmem.1 hmem.2]
        rw [hcongr]
        have hgb := hgood b (by simp)
        exact block_vi y g b.index b.len hgb.len_pos b.ghat hgb.mean_eq hgb.init_ge
          (fun i hi1 hi2 => hg i (by omega))
      linarith

/-- C2: the output of `pavx` minimises the sum of squared residuals
`Σ (y i - ghat i)²` over all non-decreasing sequences of length `n`. -/
theorem pavx_optimal (y : ℕ → ℚ) (n : ℕ) (hn : 1 ≤ n) (g : ℕ → ℚ)
    (hg : ∀ i, i + 1 < n → g i ≤ g (i + 1)) :
    ∑ i in Finset.range n, (y i - (pavx y n).getD i 0) ^ 2 ≤
      ∑ i in Finset.range n, (y i - g i) ^ 2 := by
  obtain ⟨htiles, hgood, hchain⟩ := pavx_1_inv y n hn
  have hblocks : ∀ b ∈ pavx_1 y n, ∀ i, b.index ≤ i → i < b.index + b.len →
      (pavx_ y n).getD i 0 = b.ghat :=
    fun b hb i h1 h2 => pavx_2_getD_block (pavx_1 y n) n htiles b hb i h1 h2
  have hvi := stack_vi y (fun i => (pavx_ y n).getD i 0) g (pavx_1 y n) n htiles hgood
    hblocks hg
  have hsq : 0 ≤ ∑ i in Finset.range n, ((pavx_ y n).getD i 0 - g i) ^ 2 :=
    Finset.sum_nonneg (fun i _ => sq_nonneg _)
  have hdecomp : ∑ i in Finset.range n, (y i - g i) ^ 2 =
      ∑ i in Finset.range n, (y i - (pavx_ y n).getD i 0) ^ 2 +
      ∑ i in Finset.range n, ((pavx_ y n).getD i 0 - g i) ^ 2 -
      2 * ∑ i in Finset.range n, (y i - (pavx_ y n).getD i 0) * (g i - (pavx_ y n).getD i 0) := by
    rw [Finset.mul_sum, ← Finset.sum_add_distrib, ← Finset.sum_sub_distrib]
    exact Finset.sum_congr rfl (fun i _ => by ring)
  show ∑ i in Finset.range n, (y i - (pavx_ y n).getD i 0) ^ 2 ≤
    ∑ i in Finset.range n, (y i - g i) ^ 2
  linarith

/-- Witness for C2 at the concrete input `y = (2, 1)` against the
non-decreasing competitor `g(i) = i`. -/
theorem pavx_optimal_witness :
    ∑ i in Finset.range 2,
        ((fun i => (([2, 1] : List ℚ)).getD i 0) i -
          (pavx (fun i => (([2, 1] : List ℚ)).getD i 0) 2).getD i 0) ^ 2 ≤
      ∑ i in Finset.range 2, ((fun i => (([2, 1] : List ℚ)).getD i 0) i - (i : ℚ)) ^ 2 :=
  pavx_optimal (fun i => (([2, 1] : List ℚ)).getD i 0) 2 (by norm_num) (fun i => (i : ℚ))
    (by
      intro i hi
      have hi0 : i = 0 := by omega
      subst hi0
      norm_num)

/-! ### C6, C7, C9: the `solve` binding -/

theorem lpSolveChecks_paired (A b c x0 : PyBlitzArr) (lam mu : Option PyBlitzArr) :
    lpSolveChecks A b c x0 lam mu = some PyErr.pairedArgsError →
    ((lam.isSome && !mu.isSome) || (mu.isSome && !lam.isSome)) = true := by
  unfold lpSolveChecks
  split_ifs with h1 h2 h3 h4 h5 h6 h7 <;> intro h <;> simp_all

/-- C6: for every strategy subclass (the `solve` method is shared by
all three through the base type) and every core, supplying exactly one
of `lambda`/`mu` to well-typed `solve` arguments yields the
invalid-usage RuntimeError -- independently of the core, hence before
any computation -- while supplying both or neither never produces that
error. -/
theorem solve_paired_duals (strategy : Strategy) (core : LPCore)
    (A b c x0 : PyBlitzArr) (lam mu : Option PyBlitzArr) :
    ((validArr A 2 = true) → (validArr b 1 = true) → (validArr c 1 = true) →
      (validArr x0 1 = true) → (validOptArr lam = true) → (validOptArr mu = true) →
      lam.isSome ≠ mu.isSome →
      PyBobMathLpInteriorPoint_solve strategy core A b c x0 lam mu =
        Except.error PyErr.pairedArgsError) ∧
    (lam.isSome = mu.isSome →
      PyBobMathLpInteriorPoint_solve strategy core A b c x0 lam mu ≠
        Except.error PyErr.pairedArgsError) := by
  constructor
  · intro hA hB hC hX hL hM hne
    have hck : lpSolveChecks A b c x0 lam mu = some PyErr.pairedArgsError := by
      cases lam with
      | none =>
          cases mu with
          | none => simp at hne
          | some m =>
              unfold lpSolveChecks
              simp [hA, hB, hC, hX, hL, hM]
      | some l =>
          cases mu with
          | none =>
              unfold lpSolveChecks
              simp [hA, hB, hC, hX, hL, hM]
          | some m => simp at hne
    unfold PyBobMathLpInteriorPoint_solve
    rw [hck]
  · intro hsame
    have hpair : ((lam.isSome && !mu.isSome) || (mu.isSome && !lam.isSome)) = false := by
      cases hl : lam.isSome <;> cases hm : mu.isSome <;> simp_all
    unfold PyBobMathLpInteriorPoint_solve
    cases hck : lpSolveChecks A b c x0 lam mu with
    | some e =>
        have hne : e ≠ PyErr.pairedArgsError := by
          intro he
          subst he
          have := lpSolveChecks_paired A b c x0 lam mu hck
          rw [hpair] at this
          exact absurd this (by simp)
        simp [hne]
    | none =>
        generalize core strategy A.data b.data c.data x0.data (dualsData lam mu) = r
        cases r <;> simp

/-- Witness for C6 with the shortstep strategy, a trivial core, and
well-typed 1×1 problem data, `lambda` supplied without `mu`. -/
theorem solve_paired_duals_witness :
    PyBobMathLpInteriorPoint_solve Strategy.shortstep
        (fun _ _ _ _ w _ => Except.ok w)
        ⟨12, [1, 1], [1]⟩ ⟨12, [1], [1]⟩ ⟨12, [2], [1, 0]⟩ ⟨12, [2], [1, 1]⟩
        (some ⟨12, [1], [0]⟩) none =
      Except.error PyErr.pairedArgsError ∧
    PyBobMathLpInteriorPoint_solve Strategy.shortstep
        (fun _ _ _ _ w _ => Except.ok w)
        ⟨12, [1, 1], [1]⟩ ⟨12, [1], [1]⟩ ⟨12, [2], [1, 0]⟩ ⟨12, [2], [1, 1]⟩
        (some ⟨12, [1], [0]⟩) (some ⟨12, [2], [0, 0]⟩) ≠
      Except.error PyErr.pairedArgsError := by
  constructor
  · exact (solve_paired_duals Strategy.shortstep (fun _ _ _ _ w _ => Except.ok w)
      ⟨12, [1, 1], [1]⟩ ⟨12, [1], [1]⟩ ⟨12, [2], [1, 0]⟩ ⟨12, [2], [1, 1]⟩
      (some ⟨12, [1], [0]⟩) none).1
      (by decide) (by decide) (by decide) (by decide) (by decide) (by decide) (by decide)
  · exact (solve_paired_duals Strategy.shortstep (fun _ _ _ _ w _ => Except.ok w)
      ⟨12, [1, 1], [1]⟩ ⟨12, [1], [1]⟩ ⟨12, [2], [1, 0]⟩ ⟨12, [2], [1, 1]⟩
      (some ⟨12, [1], [0]⟩) (some ⟨12, [2], [0, 0]⟩)).2 (by decide)

/-- C7: every successful `solve` call with a start vector `x0` of
length `2N` returns an array of length `N`: only the first half of the
doubled-width internal solution is handed back (the core preserving the
wrapper length, as the C++ core mutates a fixed-extent array in
place). -/
theorem solve_first_half (strategy : Strategy) (core : LPCore)
    (A b c x0 : PyBlitzArr) (lam mu : Option PyBlitzArr) (N : ℕ) (ret : PyBlitzArr)
    (hshape : x0.shape = [2 * N]) (hdata : x0.data.length = 2 * N)
    (hcore : ∀ s Ad bd cd w d out, core s Ad bd cd w d = Except.ok out →
      out.length = w.length)
    (hok : PyBobMathLpInteriorPoint_solve strategy core A b c x0 lam mu = Except.ok ret) :
    ret.shape = [N] ∧ ret.data.length = N := by
  unfold PyBobMathLpInteriorPoint_solve at hok
  cases hck : lpSolveChecks A b c x0 lam mu with
  | some e =>
      rw [hck] at hok
      have hok2 : (Except.error e : Except PyErr PyBlitzArr) = Except.ok ret := hok
      exact absurd hok2 (by simp)
  | none =>
      rw [hck] at hok
      cases hcore0 : core strategy A.data b.data c.data x0.data (dualsData lam mu) with
      | error msg =>
          rw [hcore0] at hok
          have hok2 : (Except.error (PyErr.runtimeError msg) :
              Except PyErr PyBlitzArr) = Except.ok ret := hok
          exact absurd hok2 (by simp)
      | ok out =>
          rw [hcore0] at hok
          have hok2 : (Except.ok (⟨NPY_FLOAT64, [x0.shape.getD 0 0 / 2],
              out.take (x0.shape.getD 0 0 / 2)⟩ : PyBlitzArr) :
              Except PyErr PyBlitzArr) = Except.ok ret := hok
          have hret : ret = ⟨NPY_FLOAT64, [x0.shape.getD 0 0 / 2],
              out.take (x0.shape.getD 0 0 / 2)⟩ := by
            injection hok2 with h
            exact h.symm
          have hhalf : x0.shape.getD 0 0 / 2 = N := by
            rw [hshape]
            show 2 * N / 2 = N
            omega
          have hout : out.length = 2 * N := by
            rw [hcore _ _ _ _ _ _ _ hcore0]
            exact hdata
          subst hret
          refine ⟨by rw [hhalf], ?_⟩
          show (out.take (x0.shape.getD 0 0 / 2)).length = N
          rw [List.length_take, hhalf, hout]
          omega

/-- Witness for C7: a well-typed call with `x0` of length 2 returns an
array of shape `(1)` holding 1 element. -/
theorem solve_first_half_witness :
    PyBobMathLpInteriorPoint_solve Strategy.longstep (fun _ _ _ _ w _ => Except.ok w)
        ⟨12, [1, 1], [1]⟩ ⟨12, [1], [1]⟩ ⟨12, [2], [1, 0]⟩ ⟨12, [2], [3, 4]⟩ none none =
      Except.ok ⟨12, [1], [3]⟩ ∧
    (⟨12, [1], [3]⟩ : PyBlitzArr).shape = [1] ∧
    (⟨12, [1], [3]⟩ : PyBlitzArr).data.length = 1 := by
  refine ⟨rfl, ?_⟩
  exact solve_first_half Strategy.longstep (fun _ _ _ _ w _ => Except.ok w)
    ⟨12, [1, 1], [1]⟩ ⟨12, [1], [1]⟩ ⟨12, [2], [1, 0]⟩ ⟨12, [2], [3, 4]⟩ none none 1
    ⟨12, [1], [3]⟩ (by decide) (by decide)
    (fun s Ad bd cd w d out h => by
      injection h with h
      rw [← h])
    rfl

theorem heap_alloc_mem_ne (h : Heap) (v : List ℚ) (j : ℕ) (hj : j ≠ h.next) :
    ((h.alloc v).2).mem j = h.mem j := by
  simp [Heap.alloc, hj]

theorem heap_write_mem_ne (h : Heap) (i j : ℕ) (v : List ℚ) (hj : j ≠ i) :
    (h.write i v).mem j = h.mem j := by
  simp [Heap.write, hj]

theorem solveHeapRun_frame (strategy : Strategy) (core : LPCore) (h1 : Heap) (wid : ℕ)
    (A b c x0 : PyArrRef) (lam mu : Option PyArrRef) (j : ℕ) (hj : j ≠ wid) :
    ((solveHeapRun strategy core h1 wid A b c x0 lam mu).1).mem j = h1.mem j := by
  unfold solveHeapRun
  cases hcore : core strategy (h1.mem A.id) (h1.mem b.id) (h1.mem c.id) (h1.mem wid)
      (dualsMem h1 lam mu) with
  | error msg => rfl
  | ok out => exact heap_write_mem_ne h1 wid j out hj

/-- C9: the checked `solve` entry point never modifies the
caller-supplied `x0` buffer: the iteration runs on a freshly allocated
copy, so after any call -- validation failure, core failure or success
-- the `x0` buffer holds exactly its original contents. -/
theorem solve_heap_x0_unchanged (strategy : Strategy) (core : LPCore) (h : Heap)
    (A b c x0 : PyArrRef) (lam mu : Option PyArrRef) (hvalid : x0.id < h.next) :
    ((PyBobMathLpInteriorPoint_solve_heap strategy core h A b c x0 lam mu).1).mem x0.id =
      h.mem x0.id := by
  unfold PyBobMathLpInteriorPoint_solve_heap
  cases hck : lpSolveChecks (refArr h A) (refArr h b) (refArr h c) (refArr h x0)
      (lam.map (refArr h)) (mu.map (refArr h)) with
  | some e => rfl
  | none =>
      have hwid : (h.alloc (h.mem x0.id)).1 = h.next := rfl
      have hne : x0.id ≠ (h.alloc (h.mem x0.id)).1 := by
        rw [hwid]
        omega
      rw [solveHeapRun_frame strategy core _ _ A b c x0 lam mu x0.id hne]
      exact heap_alloc_mem_ne h _ x0.id (by rw [← hwid]; exact hne)

/-- Witness for C9: a concrete two-buffer store; the `x0` buffer is
unchanged after a successful solve. -/
theorem solve_heap_x0_unchanged_witness :
    ((PyBobMathLpInteriorPoint_solve_heap Strategy.predictorCorrector
        (fun _ _ _ _ w _ => Except.ok w)
        ⟨1, fun _ => [3, 4]⟩ ⟨12, [1, 1], 0⟩ ⟨12, [1], 0⟩ ⟨12, [2], 0⟩ ⟨12, [2], 0⟩
        none none).1).mem 0 = (⟨1, fun _ => [3, 4]⟩ : Heap).mem 0 :=
  solve_heap_x0_unchanged Strategy.predictorCorrector (fun _ _ _ _ w _ => Except.ok w)
    ⟨1, fun _ => [3, 4]⟩ ⟨12, [1, 1], 0⟩ ⟨12, [1], 0⟩ ⟨12, [2], 0⟩ ⟨12, [2], 0⟩
    none none (by norm_num)

/-! ### C8: the feasibility predicate -/

/-- C8: `isFeasible` returns `true` exactly when all four spec
conditions hold: `‖Ax−b‖ < ε`, `x ≥ 0` componentwise, `‖Aᵗλ+μ−c‖ < ε`
and `μ ≥ 0` componentwise (norm comparisons in the equivalent squared
form); being a function of its arguments, it mutates nothing. -/
theorem isFeasible_iff (M N : ℕ) (eps : ℚ) (A : ℕ → ℕ → ℚ) (b c x lam mu : ℕ → ℚ) :
    isFeasible M N eps A b c x lam mu = true ↔
      (sqNorm (fun i => matVec A x N i - b i) M < eps ^ 2 ∧
       (∀ i < N, 0 ≤ x i) ∧
       sqNorm (fun j => matTVec A lam M j + mu j - c j) N < eps ^ 2 ∧
       (∀ j < N, 0 ≤ mu j)) := by
  unfold isFeasible
  simp [and_assoc]

end BobMath
